import Mathlib

/-!
Verification of the Milvus segment filter-expression execution core.

This file gives a shallow embedding, in Lean 4, of the parts of the
engine that the specification talks about:

* the unary range filter's data path
  (`exec/expression/UnaryExpr.cpp`, `exec/expression/Expr.h`),
* the leaf-evaluator cursor state and batch sizing
  (`SegmentExpr` in `exec/expression/Expr.h`),
* the bitset assembler (`AppendOneChunk` in
  `query/visitors/ExecPlanNodeVisitor.cpp`),
* the n-ary conjunction/disjunction evaluator
  (`exec/expression/ConjunctExpr.{h,cpp}`),
* the logical binary evaluator (`exec/expression/LogicalBinaryExpr.{h,cpp}`),
* the chunked column store writes (`segcore/ConcurrentVector.h`),
* the task queue and consumer cursor (`exec/TaskCursor.{h,cpp}`),
* the JSON containment evaluators (`exec/expression/JsonContainsExpr.cpp`).

C++ `int64_t` values are modelled as `Int`, machine integers of width `w`
as `Int` together with an explicit wrap-around cast, and boolean row
vectors as `List Bool`.  Loops are translated into structural recursions
whose fuel is exactly the iteration count of the source loop.
-/

namespace Milvus

/-- Segment kind, from `common/Types.h` usage in `Expr.h`
(`SegmentType::Growing` / sealed otherwise). -/
inductive SegmentType where
  | Growing
  | Sealed
deriving DecidableEq

/-- Comparison operators of `proto::plan::OpType` that the unary range
filter dispatches on for numeric columns (`UnaryExpr.cpp`, `Eval`).
`PrefixMatch` is string-only and not needed for the integer claims. -/
inductive OpType where
  | Equal
  | NotEqual
  | GreaterThan
  | LessThan
  | GreaterEqual
  | LessEqual
deriving DecidableEq

/-- Wrap-around conversion of an `int64` value to a signed integer of
bit width `w`: the semantics of the C++ `static_cast<T>(value)` used by
`GetValueFromProto<T>` for integral `T` (`exec/expression/Expr.h`,
lines 304-307, `static_cast<T>(value_proto.int64_val())`). -/
def wrapToWidth (w : Nat) (v : Int) : Int :=
  (v + 2 ^ (w - 1)) % 2 ^ w - 2 ^ (w - 1)

/-- Largest value of the signed integer type of width `w`
(`std::numeric_limits<T>::max()`). -/
def intTypeMax (w : Nat) : Int := 2 ^ (w - 1) - 1

/-- Smallest value of the signed integer type of width `w`
(`std::numeric_limits<T>::min()`). -/
def intTypeMin (w : Nat) : Int := -(2 ^ (w - 1))

/-- `GetValueFromProto<T>` for an integral column type of width `w`
(`exec/expression/Expr.h`, lines 304-307): the `int64` payload of the
proto literal is converted by `static_cast<T>`, i.e. reduced modulo
`2 ^ w` -- there is no range check. -/
def GetValueFromProtoIntegral (w : Nat) (int64_val : Int) : Int :=
  wrapToWidth w int64_val

/-- `UnaryElementFunc<T, op>::operator()` from
`exec/expression/UnaryExpr.h`, lines 32-56, specialised to integer
element types: `res[i] = src[i] OP val` for each element of the chunk. -/
def UnaryElementFunc (op : OpType) (src : List Int) (val : Int) : List Bool :=
  src.map fun s =>
    match op with
    | .Equal => decide (s = val)
    | .NotEqual => decide (s ≠ val)
    | .GreaterThan => decide (s > val)
    | .LessThan => decide (s < val)
    | .GreaterEqual => decide (s ≥ val)
    | .LessEqual => decide (s ≤ val)

/-- `PhyUnaryRangeFilterExpr::ExecRangeVisitorImplForData<T>`
(`exec/expression/UnaryExpr.cpp`, lines 420-483) specialised to an
integer column of width `w` and restricted to one data chunk: the proto
literal is converted by `GetValueFromProto<T>` (`static_cast`), then the
element kernel `UnaryElementFunc` is applied to the chunk.  The batch
bookkeeping of `ProcessDataChunks` does not alter the per-row values and
is modelled separately. -/
def ExecRangeVisitorImplForDataInt (w : Nat) (op : OpType) (chunk : List Int)
    (int64_val : Int) : List Bool :=
  UnaryElementFunc op chunk (GetValueFromProtoIntegral w int64_val)

/-- Claim C1: the claim states that for an integer column and an int64
literal `v` above the column type's maximum, `(C > v)` evaluates to
false on every row in data mode.  The code instead converts the literal
with `static_cast<T>` (wrap-around) and compares against the wrapped
value: for an `int8` column holding the single row `50` and the literal
`300 > intTypeMax 8 = 127`, the wrapped literal is `44` and the
predicate `C > 300` returns `true`, not `false`.  This disproves the
claimed overflow collapse (the binary range family does collapse, via
`PreCheckOverflow` in `BinaryRangeExpr.cpp`; the unary family has no
such check). -/
theorem unary_overflow_collapse_fails_int8 :
    (300 : Int) > intTypeMax 8 ∧
    GetValueFromProtoIntegral 8 300 = 44 ∧
    ExecRangeVisitorImplForDataInt 8 .GreaterThan [50] 300 = [true] ∧
    ExecRangeVisitorImplForDataInt 8 .GreaterThan [50] 300 ≠ [false] := by
  refine ⟨by decide, by decide, by decide, by decide⟩

/-- The logical binary operators of
`exec/expression/LogicalBinaryExpr.h`, line 30 (`Invalid` reaches only
a panic in `Eval` and is omitted). -/
inductive LogicalOpType where
  | And
  | Or
  | Xor
  | Minus
deriving DecidableEq

/-- The per-element effect of `left[i] -= right[i]` on C++ `bool`
operands (`LogicalBinaryExpr.h`, line 44): both operands are promoted
to `int`, the difference is taken, and the result is converted back to
`bool` (non-zero becomes `true`). -/
def boolMinusAssign (l r : Bool) : Bool :=
  decide (((l.toNat : Int) - (r.toNat : Int)) ≠ 0)

/-- `LogicalElementFunc<op>::operator()` from
`exec/expression/LogicalBinaryExpr.h`, lines 32-52: the left vector is
updated in place with `&=`, `|=`, `^=` or `-=` against the right
vector; the updated left vector is the result
(`PhyLogicalBinaryExpr::Eval`, `LogicalBinaryExpr.cpp` lines 22-53). -/
def LogicalElementFunc (op : LogicalOpType) (left right : List Bool) : List Bool :=
  List.zipWith
    (fun l r =>
      match op with
      | .And => l && r
      | .Or => l || r
      | .Xor => xor l r
      | .Minus => boolMinusAssign l r)
    left right

/-- On C++ `bool` operands, `-=` computes exclusive-or, not
set-difference: `false - true = -1`, which converts back to `true`. -/
theorem logicalElementFunc_minus_eq_xor (left right : List Bool) :
    LogicalElementFunc .Minus left right = LogicalElementFunc .Xor left right := by
  unfold LogicalElementFunc
  induction left generalizing right with
  | nil => simp
  | cons l ls ih =>
    cases right with
    | nil => simp
    | cons r rs =>
      simp only [List.zipWith]
      refine congrArg₂ _ ?_ (ih rs)
      cases l <;> cases r <;> decide

/-- Claim C5: the claim states that `Minus` writes `l[i] AND NOT r[i]`.
On the element pair `l = false`, `r = true` the code computes
`bool(int(false) - int(true)) = bool(-1) = true`, while
`l AND NOT r = false`: the `Minus` row of the claim fails (`And`, `Or`
and `Xor` do agree with their per-element definitions). -/
theorem logical_minus_codebug :
    LogicalElementFunc .Minus [false] [true] = [true] ∧
    (false && !true) = false ∧
    LogicalElementFunc .Minus [false] [true] ≠ [false && !true] := by
  refine ⟨by decide, by decide, by decide⟩

/-! ## Leaf evaluator state (`SegmentExpr`, `exec/expression/Expr.h`) -/

/-- The mutable evaluation state of a leaf evaluator, the fields of
`SegmentExpr` (`exec/expression/Expr.h`, lines 207-226).  All counters
are C++ `int64_t`, modelled as `Int`. -/
structure SegmentExprState where
  is_index_mode : Bool
  seg_type : SegmentType
  num_rows : Int
  batch_size : Int
  size_per_chunk : Int
  num_data_chunk : Int
  num_index_chunk : Int
  current_data_chunk : Int
  current_data_chunk_pos : Int
  current_index_chunk : Int
  current_index_chunk_pos : Int
deriving DecidableEq

/-- The `SegmentExpr` constructor together with `InitSegmentExpr`
(`exec/expression/Expr.h`, lines 72-108): reads
`num_rows = segment->get_active_count(ts)` and
`size_per_chunk = segment->size_per_chunk()`, asserts
`batch_size > 0`, additionally asserts `batch_size > size_per_chunk`
for a growing segment, and then initialises either the index-chunk or
the data-chunk count depending on `segment->HasIndex(field)`.  A failed
`AssertInfo` is a fatal error, modelled as `Except.error`. -/
def SegmentExpr_construct (seg_type : SegmentType) (active_count : Int)
    (size_per_chunk : Int) (has_index : Bool) (num_chunk_index : Int)
    (num_chunk_data : Int) (batch_size : Int) :
    Except String SegmentExprState :=
  if batch_size > 0 then
    if seg_type = .Growing ∧ ¬ batch_size > size_per_chunk then
      .error "expr batch size should greater than size per chunk for growing segment"
    else
      .ok
        { is_index_mode := has_index
          seg_type := seg_type
          num_rows := active_count
          batch_size := batch_size
          size_per_chunk := size_per_chunk
          num_data_chunk := if has_index then 0 else num_chunk_data
          num_index_chunk := if has_index then num_chunk_index else 0
          current_data_chunk := 0
          current_data_chunk_pos := 0
          current_index_chunk := 0
          current_index_chunk_pos := 0 }
  else .error "expr batch size should greater than zero"

/-- `Except.isOk`, spelt out so the claims can state reachability of
the assertion branches. -/
def exceptIsOk : Except String SegmentExprState → Bool
  | .ok _ => true
  | .error _ => false

/-- Claim C10: constructing a leaf evaluator succeeds (no fatal
assertion fires) exactly when `batch_size > 0` and, for a growing
segment, `batch_size > size_per_chunk`; under these preconditions both
assertion branches are unreachable. -/
theorem segmentExpr_construct_assertions (seg_type : SegmentType)
    (active_count size_per_chunk : Int) (has_index : Bool)
    (num_chunk_index num_chunk_data batch_size : Int) :
    exceptIsOk (SegmentExpr_construct seg_type active_count size_per_chunk
        has_index num_chunk_index num_chunk_data batch_size) = true ↔
      (0 < batch_size ∧ (seg_type = .Growing → size_per_chunk < batch_size)) := by
  unfold SegmentExpr_construct exceptIsOk
  by_cases hb : batch_size > 0
  · by_cases hg : seg_type = .Growing ∧ ¬ batch_size > size_per_chunk
    · simp only [if_pos hb, if_pos hg]
      constructor
      · intro h; cases h
      · rintro ⟨-, himp⟩
        exact absurd (himp hg.1) (by simpa using hg.2)
    · simp only [if_pos hb, if_neg hg]
      constructor
      · intro _
        refine ⟨hb, fun hgrow => ?_⟩
        by_contra hle
        exact hg ⟨hgrow, by omega⟩
      · intro _; trivial
  · simp only [if_neg hb]
    constructor
    · intro h; cases h
    · rintro ⟨hpos, -⟩; omega

/-- Witness for `segmentExpr_construct_assertions`: a growing-segment
evaluator with batch size 4096 over chunks of 1024 rows constructs
successfully, and one with batch size 0 does not. -/
theorem segmentExpr_construct_assertions_witness :
    exceptIsOk (SegmentExpr_construct .Growing 5000 1024 false 0 5 4096)
      = true ∧
    exceptIsOk (SegmentExpr_construct .Sealed 5000 1024 false 0 1 0)
      = false := by
  constructor
  · exact (segmentExpr_construct_assertions .Growing 5000 1024 false 0 5
      4096).mpr ⟨by decide, fun _ => by decide⟩
  · have h := segmentExpr_construct_assertions .Sealed 5000 1024 false 0 1 0
    rcases hok : exceptIsOk (SegmentExpr_construct .Sealed 5000 1024 false 0
      1 0) with _ | _
    · rfl
    · exact absurd ((h.mp hok).1) (by decide)

/-- `SegmentExpr::GetNextBatchSize` (`exec/expression/Expr.h`, lines
110-123), translated verbatim.  Note the source's conditional on line
114-115: in index mode it reads `current_data_chunk_pos_`, and in data
mode it reads `current_index_chunk_pos_`. -/
def GetNextBatchSize (s : SegmentExprState) : Int :=
  let current_chunk :=
    if s.is_index_mode then s.current_index_chunk else s.current_data_chunk
  let current_chunk_pos :=
    if s.is_index_mode then s.current_data_chunk_pos else s.current_index_chunk_pos
  let current_rows :=
    if s.seg_type = .Growing then
      current_chunk * s.size_per_chunk + current_chunk_pos
    else current_chunk_pos
  if current_rows + s.batch_size ≥ s.num_rows then s.num_rows - current_rows
  else s.batch_size

/-- One iteration structure of the chunk loop of
`SegmentExpr::ProcessDataChunks` (`exec/expression/Expr.h`, lines
125-156), tracking the cursor fields and `processed_size`; the fuel is
the number of loop iterations left, `num_data_chunk - i`.  The
element-wise kernel call `func(...)` does not touch the cursor and is
dropped here.  When the loop exhausts the chunks without reaching the
batch size, the source leaves the cursor unchanged (no `break`). -/
def ProcessDataChunks_go (s : SegmentExprState) :
    Nat → Int → Int → SegmentExprState × Int
  | 0, _, processed => (s, processed)
  | fuel + 1, i, processed =>
      let data_pos :=
        if i = s.current_data_chunk then s.current_data_chunk_pos else 0
      let size0 :=
        if i = s.num_data_chunk - 1 then
          (if s.seg_type = .Growing then
            s.num_rows % s.size_per_chunk - data_pos
          else s.num_rows - data_pos)
        else s.size_per_chunk - data_pos
      let size :=
        if processed + size0 ≥ s.batch_size then s.batch_size - processed
        else size0
      let processed2 := processed + size
      if processed2 ≥ s.batch_size then
        ({ s with current_data_chunk := i,
                  current_data_chunk_pos := data_pos + size }, processed2)
      else ProcessDataChunks_go s fuel (i + 1) processed2

/-- `SegmentExpr::ProcessDataChunks`, cursor effect: runs the loop from
`current_data_chunk` to `num_data_chunk - 1` and returns the updated
state and `processed_size`. -/
def ProcessDataChunks (s : SegmentExprState) : SegmentExprState × Int :=
  ProcessDataChunks_go s (s.num_data_chunk - s.current_data_chunk).toNat
    s.current_data_chunk 0

/-- The claimed batch size: `min(batch_size, rows_remaining)` where
`rows_remaining` is the active row count minus the rows already
consumed by the evaluator's cursor. -/
def claimedNextBatchSize (s : SegmentExprState) (rows_consumed : Int) : Int :=
  min s.batch_size (s.num_rows - rows_consumed)

/-- A sealed-segment leaf evaluator in data mode: active count 10,
single data chunk, batch size 3 (constructed by
`SegmentExpr_construct .Sealed 10 10 false 0 1 3`). -/
def c2State0 : SegmentExprState :=
  { is_index_mode := false
    seg_type := .Sealed
    num_rows := 10
    batch_size := 3
    size_per_chunk := 10
    num_data_chunk := 1
    num_index_chunk := 0
    current_data_chunk := 0
    current_data_chunk_pos := 0
    current_index_chunk := 0
    current_index_chunk_pos := 0 }

/-- The evaluator state after one, two and three processed batches. -/
def c2State1 : SegmentExprState := (ProcessDataChunks c2State0).1

/-- See `c2State1`. -/
def c2State2 : SegmentExprState := (ProcessDataChunks c2State1).1

/-- See `c2State1`. -/
def c2State3 : SegmentExprState := (ProcessDataChunks c2State2).1

/-- Claim C2: the claim states `next_batch_size() = min(batch_size,
rows_remaining)` computed from the cursor.  The source swaps the two
cursor variables (`Expr.h` lines 112-115: index mode reads the data
position, data mode reads the index position), so in data mode on a
sealed segment the consumed-row count always reads as `0`.  Concretely:
starting from a fresh sealed evaluator with 10 active rows and batch
size 3, three `ProcessDataChunks` calls consume 3 rows each (9 rows
total, cursor at position 9), yet `GetNextBatchSize` still returns 3
where the claim requires `min(3, 10 - 9) = 1`. -/
theorem getNextBatchSize_ignores_data_cursor :
    SegmentExpr_construct .Sealed 10 10 false 0 1 3 = Except.ok c2State0 ∧
    (ProcessDataChunks c2State0).2 = 3 ∧
    (ProcessDataChunks c2State1).2 = 3 ∧
    (ProcessDataChunks c2State2).2 = 3 ∧
    c2State3.current_data_chunk_pos = 9 ∧
    claimedNextBatchSize c2State3 9 = 1 ∧
    GetNextBatchSize c2State3 = 3 ∧
    GetNextBatchSize c2State3 ≠ claimedNextBatchSize c2State3 9 := by
  refine ⟨by rfl, by decide, by decide, by decide, by decide, by decide,
    by decide, by decide⟩

/-! ## Conjunction / disjunction (`exec/expression/ConjunctExpr.{h,cpp}`) -/

/-- `AllTrue` from `ConjunctExpr.cpp`, lines 39-48. -/
def AllTrue (vec : List Bool) : Bool := vec.all fun b => b

/-- `AllFalse` from `ConjunctExpr.cpp`, lines 50-59. -/
def AllFalse (vec : List Bool) : Bool := vec.all fun b => !b

/-- `ConjunctElementFunc<is_and>::operator()` (`ConjunctExpr.h`, lines
30-44): `res_data[i] &= input_data[i]` when `is_and`, else
`res_data[i] |= input_data[i]`, for `i < result->size()`. -/
def ConjunctElementFunc (is_and : Bool) (input_result result : List Bool) :
    List Bool :=
  List.zipWith (fun r i => if is_and then r && i else r || i) result input_result

/-- `PhyConjunctFilterExpr::UpdateResult` (`ConjunctExpr.cpp`, lines
61-84): short-circuits to the child's vector with `0` active rows when
the child is all-false (AND) or all-true (OR); otherwise accumulates
the child into `result` and returns `result->size()`. -/
def UpdateResult (is_and : Bool) (input_result result : List Bool) :
    List Bool × Int :=
  if is_and then
    if AllFalse input_result then (input_result, 0)
    else (ConjunctElementFunc true input_result result, (result.length : Int))
  else
    if AllTrue input_result then (input_result, 0)
    else (ConjunctElementFunc false input_result result, (result.length : Int))

/-- The child loop of `PhyConjunctFilterExpr::Eval` (`ConjunctExpr.cpp`,
lines 86-104) after the first child created the fresh result vector:
processes each child's batch result in order and returns as soon as
`UpdateResult` reports `0` active rows.  `Eval` passes `UpdateResult` a
local `shared_ptr` copy (`auto flat_result = dynamic_pointer_cast<...>
(result)`), so the `result = input_result` rebinding inside
`UpdateResult` is invisible to `Eval`'s output parameter: on the
short-circuit path the caller's buffer is returned unchanged, while on
the accumulate path the in-place `ConjunctElementFunc` mutation (which
is `step.1`) is visible. -/
def PhyConjunctFilterExpr_Eval_go (is_and : Bool) (result : List Bool) :
    List (List Bool) → List Bool
  | [] => result
  | c :: rest =>
      let step := UpdateResult is_and c result
      if step.2 = 0 then result
      else PhyConjunctFilterExpr_Eval_go is_and step.1 rest

/-- `PhyConjunctFilterExpr::Eval` (`ConjunctExpr.cpp`, lines 86-104).
On the first iteration the source allocates
`result = make_shared<FlatVector>(DataType::BOOL, input_result->size())`
-- a fresh buffer obtained from `InitScalarFieldData`
(`common/FieldData.h`, outside this tree) -- and then runs
`UpdateResult` against that fresh buffer exactly as against any later
accumulator.  The unknown initial contents of the fresh buffer are
passed in as `fresh` (its length is the first child's length). -/
def PhyConjunctFilterExpr_Eval (is_and : Bool) (children : List (List Bool))
    (fresh : List Bool) : List Bool :=
  PhyConjunctFilterExpr_Eval_go is_and fresh children

/-- On an all-false child, the AND path stops evaluating the remaining
children, but what it returns is the accumulator buffer unchanged --
not the child's vector, since `UpdateResult`'s rebinding of its
by-reference pointer argument is invisible to `Eval`. -/
theorem conjunct_and_short_circuit_returns_buffer (c : List Bool)
    (rest : List (List Bool)) (fresh : List Bool) (h : AllFalse c = true) :
    PhyConjunctFilterExpr_Eval true (c :: rest) fresh = fresh := by
  unfold PhyConjunctFilterExpr_Eval PhyConjunctFilterExpr_Eval_go UpdateResult
  simp [h]

/-- Symmetric statement for the OR path on an all-true child. -/
theorem conjunct_or_short_circuit_returns_buffer (c : List Bool)
    (rest : List (List Bool)) (fresh : List Bool) (h : AllTrue c = true) :
    PhyConjunctFilterExpr_Eval false (c :: rest) fresh = fresh := by
  unfold PhyConjunctFilterExpr_Eval PhyConjunctFilterExpr_Eval_go UpdateResult
  simp [h]

/-- Claim C4: two independent defects contradict the claim.  First, the
non-short-circuit part: the first child is accumulated into the freshly
allocated result buffer with `&=` (resp. `|=`) instead of being copied,
so the buffer's initial contents survive into the result -- for the
one-row AND of children `[true]`, `[true]` the claim requires `[true]`
and for the one-row OR of `[false]`, `[false]` it requires `[false]`,
and no initial buffer value `b` satisfies both, whatever
`InitScalarFieldData` returns.  Second, the short-circuit part: on an
all-false AND child the claim requires the child's vector back, but
`Eval` returns its own buffer, because `UpdateResult` rebinds only a
local copy of the `shared_ptr` (with the fresh buffer `[true, true]`
and the all-false first child `[false, false]`, `Eval` returns
`[true, true]`). -/
theorem conjunct_fresh_buffer_codebug :
    (¬ ∃ b : Bool,
        PhyConjunctFilterExpr_Eval true [[true], [true]] [b] = [true] ∧
        PhyConjunctFilterExpr_Eval false [[false], [false]] [b] = [false]) ∧
    PhyConjunctFilterExpr_Eval true [[false, false]] [true, true] =
      [true, true] ∧
    PhyConjunctFilterExpr_Eval true [[false, false]] [true, true] ≠
      [false, false] := by
  refine ⟨by decide, by decide, by decide⟩

/-! ## Chunked column writes (`segcore/ConcurrentVector.h`) -/

/-- `ConcurrentVectorImpl<Type, true, true>::fill_chunk`
(`segcore/ConcurrentVector.h`, lines 500-517).  A chunk is modelled as
a map from element position to value, the chunk list as a map from
chunk id.  The destination of the `memcpy` is
`ptr + chunk_offset * sizeof(Type)` where `ptr` is an element-typed
pointer, i.e. destination element index `chunk_offset * sizeOfType`;
`element_count * sizeof(Type)` bytes, i.e. `element_count` elements,
are copied from `source` -- the `source_offset` argument is not used by
the copy (the correct `std::copy_n(source + source_offset, ...)` is
present only as a comment in the source). -/
def ConcurrentVector_fill_chunk (sizeOfType : Nat)
    (chunks : Nat → Nat → Int) (chunk_id chunk_offset element_count : Nat)
    (source : Nat → Int) (source_offset : Nat) : Nat → Nat → Int :=
  if element_count = 0 then chunks
  else fun c p =>
    if c = chunk_id ∧ chunk_offset * sizeOfType ≤ p ∧
        p < chunk_offset * sizeOfType + element_count then
      source (p - chunk_offset * sizeOfType)
    else chunks c p

/-- The middle `while` loop plus the final partial write of
`ConcurrentVectorImpl<Type, true, true>::set_data`
(`segcore/ConcurrentVector.h`, lines 435-446); the fuel bounds the
iteration count (each iteration consumes `size_per_chunk ≥ 1`
elements, so `element_count` fuel suffices). -/
def ConcurrentVector_set_data_go (spc sizeOfType : Nat) :
    Nat → (Nat → Nat → Int) → Nat → (Nat → Int) → Nat → Nat →
      Nat → Nat → Int
  | 0, chunks, _, _, _, _ => chunks
  | fuel + 1, chunks, chunk_id, source, source_offset, element_count =>
      if spc ≤ element_count then
        ConcurrentVector_set_data_go spc sizeOfType fuel
          (ConcurrentVector_fill_chunk sizeOfType chunks chunk_id 0 spc
            source source_offset)
          (chunk_id + 1) source (source_offset + spc) (element_count - spc)
      else if element_count > 0 then
        ConcurrentVector_fill_chunk sizeOfType chunks chunk_id 0 element_count
          source source_offset
      else chunks

/-- `ConcurrentVectorImpl<Type, true, true>::set_data`
(`segcore/ConcurrentVector.h`, lines 416-447): splits the write at
chunk boundaries into a first partial chunk, whole middle chunks and a
final partial chunk, delegating each part to `fill_chunk`.
`size_per_chunk = 0` cannot occur for a constructed column; the guard
keeps the C++ `while` loop total. -/
def ConcurrentVector_set_data (spc sizeOfType : Nat)
    (chunks : Nat → Nat → Int) (element_offset : Nat) (source : Nat → Int)
    (element_count : Nat) : Nat → Nat → Int :=
  if spc = 0 then chunks
  else
    let chunk_id := element_offset / spc
    let chunk_offset := element_offset % spc
    if chunk_offset + element_count ≤ spc then
      ConcurrentVector_fill_chunk sizeOfType chunks chunk_id chunk_offset
        element_count source 0
    else
      let first_size := spc - chunk_offset
      let chunks1 := ConcurrentVector_fill_chunk sizeOfType chunks chunk_id
        chunk_offset first_size source 0
      ConcurrentVector_set_data_go spc sizeOfType (element_count - first_size)
        chunks1 (chunk_id + 1) source first_size (element_count - first_size)

/-- Reading logical position `off` of the column, as the claim states
it: chunk `off / size_per_chunk`, position `off % size_per_chunk`. -/
def ConcurrentVector_read (spc : Nat) (chunks : Nat → Nat → Int)
    (off : Nat) : Int :=
  chunks (off / spc) (off % spc)

/-- The all-zero initial chunk storage. -/
def zeroChunks : Nat → Nat → Int := fun _ _ => 0

/-- Claim C6: the claim states that after writing `n` elements at
logical offset `off`, source element `k` is stored in chunk
`(off+k) / size_per_chunk` at position `(off+k) % size_per_chunk` and
reads back as `source[k]`.  Two slips in `fill_chunk` break this:
the `memcpy` ignores `source_offset`, so every chunk after the first
receives the source from index 0 again, and the destination offset is
scaled by `sizeof(Type)` on an already element-typed pointer.
Concretely, with `size_per_chunk = 2`, `sizeof(Type) = 1`, a write of
`source = [1, 2, 3]` at offset 0 stores `1` -- not `3` -- at logical
position 2; and with `sizeof(Type) = 4` a write of `[7]` at offset 1
leaves logical position 1 untouched (the value lands at element index
4 of the chunk). -/
theorem set_data_misplaces_elements :
    ConcurrentVector_read 2
        (ConcurrentVector_set_data 2 1 zeroChunks 0 (fun k => (k : Int) + 1) 3)
        2 = 1 ∧
    ((fun k => (k : Int) + 1) 2 : Int) = 3 ∧
    ConcurrentVector_read 2
        (ConcurrentVector_set_data 2 1 zeroChunks 0 (fun k => (k : Int) + 1) 3)
        2 ≠ 3 ∧
    ConcurrentVector_read 10
        (ConcurrentVector_set_data 10 4 zeroChunks 1 (fun _ => (7 : Int)) 1)
        1 = 0 ∧
    (ConcurrentVector_set_data 10 4 zeroChunks 1 (fun _ => (7 : Int)) 1) 0 4
        = 7 := by
  refine ⟨by decide, by decide, by decide, by decide, by decide⟩

/-! ## Task queue and consumer cursor (`exec/TaskCursor.{h,cpp}`) -/

/-- `BlockingReason` as used by `TaskQueue::Enqueue` (declared in
`exec/Driver.h`, outside this tree; the only value the queue ever
returns is `kNotBlocked`, and a producer that had to wait would report
`kWaitForConsumer`). -/
inductive BlockingReason where
  | kNotBlocked
  | kWaitForConsumer
deriving DecidableEq

/-- The state of a `TaskQueue` (`exec/TaskCursor.h`, lines 50-83):
a FIFO of row vectors, the registered producer count (set by
`SetNumProducers`), the finished-producer counter, the consumer-parked
flag and the sticky closed flag.  The condition-variable plumbing
(promise/future) is abstracted into `consumer_blocked`. -/
structure TaskQueueState (V : Type) where
  queue : List V
  num_producers : Option Nat
  producers_finished : Nat
  consumer_blocked : Bool
  closed : Bool
deriving DecidableEq

/-- `TaskQueue::Enqueue` (`exec/TaskCursor.cpp`, lines 22-47).  A null
vector is the end-of-stream sentinel: it increments
`producers_finished` (decrementing the outstanding-producer count) and
adds no entry.  A non-null vector is appended unconditionally -- the
queue has no capacity check -- after the sticky `closed` flag is
tested, which throws.  Both paths wake a parked consumer and return
`kNotBlocked`. -/
def TaskQueue_Enqueue {V : Type} (q : TaskQueueState V) (vector : Option V) :
    Except String (BlockingReason × TaskQueueState V) :=
  match vector with
  | none =>
      .ok (.kNotBlocked,
        { q with producers_finished := q.producers_finished + 1
                 consumer_blocked := false })
  | some v =>
      if q.closed then .error "Consumer cursor is closed"
      else
        .ok (.kNotBlocked,
          { q with queue := q.queue ++ [v], consumer_blocked := false })

/-- The outcome of one pass of the `for (;;)` loop in
`TaskQueue::Dequeue` (`exec/TaskCursor.cpp`, lines 49-80): an item, the
end-of-stream `nullptr`, or parking the consumer to wait for a
producer. -/
inductive DequeueOutcome (V : Type) where
  | item (v : V) (q : TaskQueueState V)
  | eos
  | wouldBlock (q : TaskQueueState V)
deriving DecidableEq

/-- One pass of `TaskQueue::Dequeue`: pop the FIFO front if the queue
is non-empty; otherwise return null when every registered producer has
finished; otherwise park the consumer. -/
def TaskQueue_Dequeue {V : Type} (q : TaskQueueState V) : DequeueOutcome V :=
  match q.queue with
  | v :: rest => .item v { q with queue := rest }
  | [] =>
      if q.num_producers = some q.producers_finished then .eos
      else .wouldBlock { q with consumer_blocked := true }

/-- Claim C7, counterexample: the claim states that enqueue of a
non-null vector blocks the producer when the queue is at its configured
capacity.  The queue has no capacity: for every purported capacity
`cap`, enqueueing into a non-closed queue already holding `cap` entries
still returns `kNotBlocked` (and appends).  Hence no positive capacity
with the claimed blocking behaviour exists. -/
theorem taskQueue_no_capacity :
    ¬ ∃ cap : Nat, 0 < cap ∧
        ∀ (q : TaskQueueState Unit), q.closed = false →
          q.queue.length = cap →
          ∀ r q2, TaskQueue_Enqueue q (some ()) = .ok (r, q2) →
            r ≠ BlockingReason.kNotBlocked := by
  rintro ⟨cap, -, h⟩
  have hq := h
    { queue := List.replicate cap ()
      num_producers := none
      producers_finished := 0
      consumer_blocked := false
      closed := false }
    rfl (by simp) BlockingReason.kNotBlocked
  exact hq _ rfl rfl

/-- Claim C7, amended: enqueue of a non-null vector on a non-closed
queue never blocks -- it appends the entry and returns `kNotBlocked`
(the queue is unbounded); enqueue of the null sentinel adds no entry
and increments the finished-producer count; and a dequeue pass returns
null exactly when the queue is empty and all registered producers have
signalled end-of-stream. -/
theorem taskQueue_contract {V : Type} (q : TaskQueueState V) (v : V) :
    (q.closed = false →
      TaskQueue_Enqueue q (some v) =
        .ok (BlockingReason.kNotBlocked,
          { q with queue := q.queue ++ [v], consumer_blocked := false })) ∧
    TaskQueue_Enqueue q none =
      .ok (BlockingReason.kNotBlocked,
        { q with producers_finished := q.producers_finished + 1
                 consumer_blocked := false }) ∧
    (TaskQueue_Dequeue q = .eos ↔
      q.queue = [] ∧ q.num_producers = some q.producers_finished) := by
  refine ⟨fun hclosed => ?_, rfl, ?_⟩
  · simp [TaskQueue_Enqueue, hclosed]
  · unfold TaskQueue_Dequeue
    cases hq : q.queue with
    | cons v rest => simp
    | nil =>
        by_cases hp : q.num_producers = some q.producers_finished
        · simp [hp]
        · simp [hp]

/-- Witness for `taskQueue_contract` at a concrete queue state. -/
theorem taskQueue_contract_witness :
    (TaskQueueState.mk [0] (some 1) 0 false false).closed = false ∧
    TaskQueue_Enqueue (TaskQueueState.mk [0] (some 1) 0 false false)
        (some 7) =
      .ok (BlockingReason.kNotBlocked,
        TaskQueueState.mk [0, 7] (some 1) 0 false false) := by
  refine ⟨rfl, ?_⟩
  have h := (taskQueue_contract (TaskQueueState.mk [0] (some 1) 0 false false)
    7).1 rfl
  simpa using h

/-- The consumer-side cursor state relevant to `TaskCursor::MoveNext`
(`exec/TaskCursor.h`, lines 85-127): the queue, the `current_` slot and
the `at_end_` flag. -/
structure TaskCursorState (V : Type) where
  q : TaskQueueState V
  current : Option V
  at_end : Bool
deriving DecidableEq

/-- `TaskCursor::MoveNext` (`exec/TaskCursor.cpp`, lines 142-154):
dequeues into `current_`, rethrows the task's stored error if any, sets
`at_end_` when the queue returned null, and returns whether a vector
was obtained.  The outer `Option` is `none` when the dequeue pass would
park the consumer (producers still outstanding and nothing queued);
`task_error` is the task's stored error at the time of the check. -/
def TaskCursor_MoveNext {V E : Type} (s : TaskCursorState V)
    (task_error : Option E) :
    Option (Except E (Bool × TaskCursorState V)) :=
  match TaskQueue_Dequeue s.q with
  | .wouldBlock _ => none
  | .item v q2 =>
      match task_error with
      | some e => some (.error e)
      | none => some (.ok (true, { q := q2, current := some v, at_end := false }))
  | .eos =>
      match task_error with
      | some e => some (.error e)
      | none => some (.ok (false, { q := s.q, current := none, at_end := true }))

/-- Repeated `MoveNext` with no stored error, collecting the returned
vectors until the cursor reports end of stream; the fuel bounds the
number of calls. -/
def TaskCursor_drain {V : Type} : Nat → TaskCursorState V → List V
  | 0, _ => []
  | fuel + 1, s =>
      match TaskCursor_MoveNext (E := Unit) s none with
      | some (.ok (true, s2)) =>
          (match s2.current with
           | some v => v :: TaskCursor_drain fuel s2
           | none => TaskCursor_drain fuel s2)
      | _ => []

/-- Claim C8: with an error stored on the task, any `MoveNext` call
that returns (the dequeue pass did not park) rethrows that error; with
no stored error, `MoveNext` returns the queue's front vector (emission
order is FIFO order) and, once the queue is drained and all producers
have finished, returns with no vector and marks the cursor at end;
consequently draining a finished task yields exactly the queued vectors
in order. -/
theorem taskCursor_moveNext_contract {V E : Type} (s : TaskCursorState V) :
    (∀ e : E, (s.q.queue ≠ [] ∨ s.q.num_producers = some s.q.producers_finished) →
      TaskCursor_MoveNext s (some e) = some (.error e)) ∧
    (∀ v rest, s.q.queue = v :: rest →
      TaskCursor_MoveNext (E := E) s none =
        some (.ok (true,
          { q := { s.q with queue := rest }, current := some v,
            at_end := false }))) ∧
    (s.q.queue = [] → s.q.num_producers = some s.q.producers_finished →
      TaskCursor_MoveNext (E := E) s none =
        some (.ok (false, { q := s.q, current := none, at_end := true }))) ∧
    (s.q.num_producers = some s.q.producers_finished →
      TaskCursor_drain (s.q.queue.length + 1) s = s.q.queue) := by
  refine ⟨?_, ?_, ?_, ?_⟩
  · intro e hret
    unfold TaskCursor_MoveNext TaskQueue_Dequeue
    cases hq : s.q.queue with
    | cons v rest => simp
    | nil =>
        rcases hret with hne | hfin
        · exact absurd hq hne
        · simp [hfin]
  · intro v rest hq
    unfold TaskCursor_MoveNext TaskQueue_Dequeue
    rw [hq]
  · intro hq hfin
    unfold TaskCursor_MoveNext TaskQueue_Dequeue
    rw [hq]
    simp [hfin]
  · intro hfin
    rcases s with ⟨⟨queue, np, pf, cb, cl⟩, cur, ae⟩
    simp only at hfin ⊢
    induction queue generalizing cur ae with
    | nil =>
        unfold TaskCursor_drain TaskCursor_MoveNext TaskQueue_Dequeue
        simp [hfin]
    | cons v rest ih =>
        unfold TaskCursor_drain TaskCursor_MoveNext TaskQueue_Dequeue
        simpa using ih (some v) false

/-- Witness for `taskCursor_moveNext_contract` on a concrete
two-element queue with its single producer finished. -/
theorem taskCursor_moveNext_contract_witness :
    TaskCursor_drain 3
        (TaskCursorState.mk (TaskQueueState.mk [4, 5] (some 1) 1 false false)
          none false) = [4, 5] ∧
    TaskCursor_MoveNext (E := Unit)
        (TaskCursorState.mk (TaskQueueState.mk ([] : List Nat) (some 1) 1
          false false) none false) (some ()) = some (.error ()) := by
  constructor
  · exact (taskCursor_moveNext_contract (E := Unit)
      (TaskCursorState.mk (TaskQueueState.mk [4, 5] (some 1) 1 false false)
        none false)).2.2.2 rfl
  · exact (taskCursor_moveNext_contract (E := Unit)
      (TaskCursorState.mk (TaskQueueState.mk ([] : List Nat) (some 1) 1
        false false) none false)).1 () (Or.inr rfl)

/-! ## JSON containment (`exec/expression/JsonContainsExpr.cpp`)

A JSON row is modelled at the point the evaluators consume it: the
value at `nested_path` either fails to resolve to an array (`none`) or
is a list of array elements, each of which either decodes to the
query's element type (`some v`) or does not (`none`, the
`val.error()` / `continue` case). -/

/-- One row's view of the JSON array at `nested_path`, already typed at
the query's `GetType`. -/
def JsonArrayRow (α : Type) := Option (List (Option α))

/-- `std::unordered_set` insertion: adds the value only if absent. -/
def setInsert {α : Type} [DecidableEq α] (s : List α) (a : α) : List α :=
  if a ∈ s then s else s ++ [a]

/-- Building the `std::unordered_set<GetType> elements` of the
containment evaluators by inserting each literal in order. -/
def buildSet {α : Type} [DecidableEq α] (vals : List α) : List α :=
  vals.foldl setInsert []

/-- The per-row executor of
`PhyJsonContainsFilterExpr::ExecJsonContains` (`JsonContainsExpr.cpp`,
lines 193-218): resolve the array (`false` on error), then scan its
elements and return `true` at the first decodable element found in the
literal set. -/
def ExecJsonContains_row {α : Type} [DecidableEq α] (elements : List α)
    (row : JsonArrayRow α) : Bool :=
  match row with
  | none => false
  | some arr =>
      arr.any fun e =>
        match e with
        | none => false
        | some v => decide (v ∈ elements)

/-- The element scan of
`PhyJsonContainsFilterExpr::ExecJsonContainsAll` (`JsonContainsExpr.cpp`,
lines 306-325): a copy of the literal set is eroded by each decodable
array element; the row passes once (or when at loop end) the copy is
empty. -/
def containsAllLoop {α : Type} [DecidableEq α] (tmp : List α) :
    List (Option α) → Bool
  | [] => tmp.isEmpty
  | e :: rest =>
      match e with
      | none => containsAllLoop tmp rest
      | some v =>
          let tmp2 := tmp.erase v
          if tmp2.isEmpty then true else containsAllLoop tmp2 rest

/-- The per-row executor of `ExecJsonContainsAll`: resolve the array
(`false` on error), then run the eroding scan against a copy of the
literal set. -/
def ExecJsonContainsAll_row {α : Type} [DecidableEq α] (elements : List α)
    (row : JsonArrayRow α) : Bool :=
  match row with
  | none => false
  | some arr => containsAllLoop elements arr

/-- An empty literal set lets every array pass the eroding scan. -/
theorem containsAllLoop_nil {α : Type} [DecidableEq α]
    (arr : List (Option α)) : containsAllLoop ([] : List α) arr = true := by
  induction arr with
  | nil => rfl
  | cons e rest ih =>
      cases e with
      | none => simpa [containsAllLoop] using ih
      | some v => simp [containsAllLoop, List.erase]

/-- The eroding scan of a duplicate-free literal set succeeds exactly
when every set member occurs (decodably) in the array. -/
theorem containsAllLoop_iff {α : Type} [DecidableEq α] (tmp : List α)
    (arr : List (Option α)) (hnd : tmp.Nodup) :
    containsAllLoop tmp arr = true ↔ ∀ x ∈ tmp, some x ∈ arr := by
  induction arr generalizing tmp with
  | nil =>
      simp only [containsAllLoop, List.isEmpty_iff]
      constructor
      · rintro rfl; simp
      · intro h
        cases tmp with
        | nil => rfl
        | cons t ts => exact absurd (h t (by simp)) (by simp)
  | cons e rest ih =>
      cases e with
      | none =>
          rw [show containsAllLoop tmp (none :: rest) = containsAllLoop tmp rest
            from rfl, ih tmp hnd]
          constructor
          · intro h x hx; exact List.mem_cons_of_mem _ (h x hx)
          · intro h x hx
            rcases List.mem_cons.mp (h x hx) with hx0 | hx1
            · cases hx0
            · exact hx1
      | some v =>
          have hstep : containsAllLoop tmp (some v :: rest) =
              containsAllLoop (tmp.erase v) rest := by
            show (if (tmp.erase v).isEmpty then true
              else containsAllLoop (tmp.erase v) rest) = _
            by_cases he : (tmp.erase v).isEmpty
            · rw [if_pos he]
              rw [List.isEmpty_iff] at he
              rw [he, containsAllLoop_nil]
            · rw [if_neg he]
          rw [hstep, ih _ (hnd.erase v)]
          constructor
          · intro h x hx
            by_cases hxv : x = v
            · subst hxv; exact List.mem_cons_self _ _
            · exact List.mem_cons_of_mem _
                (h x (((hnd.mem_erase_iff).mpr ⟨hxv, hx⟩)))
          · intro h x hx
            have hx2 := (hnd.mem_erase_iff).mp hx
            rcases List.mem_cons.mp (h x hx2.2) with hx0 | hx1
            · exact absurd (by injection hx0) hx2.1
            · exact hx1

/-- `buildSet` keeps the set duplicate-free. -/
theorem buildSet_sound {α : Type} [DecidableEq α] (vals : List α) :
    (buildSet vals).Nodup ∧ ∀ a, a ∈ buildSet vals ↔ a ∈ vals := by
  suffices h : ∀ (s : List α), s.Nodup →
      (vals.foldl setInsert s).Nodup ∧
        ∀ a, a ∈ vals.foldl setInsert s ↔ a ∈ s ∨ a ∈ vals by
    have h2 := h [] (by simp)
    exact ⟨h2.1, fun a => by simpa using (h2.2 a)⟩
  induction vals with
  | nil => intro s hs; simpa using hs
  | cons v vs ih =>
      intro s hs
      have hins : (setInsert s v).Nodup ∧ ∀ a, a ∈ setInsert s v ↔ a ∈ s ∨ a = v := by
        unfold setInsert
        by_cases hv : v ∈ s
        · rw [if_pos hv]
          exact ⟨hs, fun a => ⟨Or.inl, fun h => by
            rcases h with h | rfl
            · exact h
            · exact hv⟩⟩
        · rw [if_neg hv]
          constructor
          · simpa [List.nodup_append] using ⟨hs, fun h => hv h⟩
          · intro a; simp
      have h3 := ih (setInsert s v) hins.1
      refine ⟨h3.1, fun a => ?_⟩
      rw [List.foldl_cons, h3.2 a, hins.2 a]
      constructor
      · rintro ((h | rfl) | h)
        · exact Or.inl h
        · exact Or.inr (List.mem_cons_self _ _)
        · exact Or.inr (List.mem_cons_of_mem _ h)
      · rintro (h | h)
        · exact Or.inl (Or.inl h)
        · rcases List.mem_cons.mp h with rfl | h
          · exact Or.inl (Or.inr rfl)
          · exact Or.inr h

/-- `ExecJsonContainsAll` computes, per row, exactly "every literal
appears among the decodable elements of the array at `nested_path`",
and a row whose path does not resolve to an array yields `false`. -/
theorem execJsonContainsAll_row_iff {α : Type} [DecidableEq α]
    (lits : List α) (arr : List (Option α)) :
    (ExecJsonContainsAll_row (buildSet lits) (some arr) = true ↔
      ∀ l ∈ lits, some l ∈ arr) ∧
    ExecJsonContainsAll_row (buildSet lits) (none : JsonArrayRow α) = false := by
  refine ⟨?_, rfl⟩
  have hb := buildSet_sound lits
  rw [show ExecJsonContainsAll_row (buildSet lits) (some arr) =
    containsAllLoop (buildSet lits) arr from rfl]
  rw [containsAllLoop_iff _ _ hb.1]
  constructor
  · intro h l hl; exact h l ((hb.2 l).mpr hl)
  · intro h x hx; exact h x ((hb.2 x).mp hx)

/-- `ExecJsonContains` computes, per row, exactly "at least one literal
appears among the decodable elements of the array at `nested_path`",
and a row whose path does not resolve to an array yields `false`. -/
theorem execJsonContains_row_iff {α : Type} [DecidableEq α]
    (lits : List α) (arr : List (Option α)) :
    (ExecJsonContains_row (buildSet lits) (some arr) = true ↔
      ∃ l ∈ lits, some l ∈ arr) ∧
    ExecJsonContains_row (buildSet lits) (none : JsonArrayRow α) = false := by
  have hb := buildSet_sound lits
  refine ⟨?_, rfl⟩
  rw [show ExecJsonContains_row (buildSet lits) (some arr) =
    (arr.any fun e => match e with
      | none => false
      | some v => decide (v ∈ buildSet lits)) from rfl]
  rw [List.any_eq_true]
  constructor
  · rintro ⟨e, he, hp⟩
    cases e with
    | none => cases hp
    | some v => exact ⟨v, (hb.2 v).mp (of_decide_eq_true hp), he⟩
  · rintro ⟨l, hl, harr⟩
    exact ⟨some l, harr, decide_eq_true ((hb.2 l).mpr hl)⟩

/-- `proto::plan::GenericValue`, the tagged literal payload
(`GetValueFromProto`, `exec/expression/Expr.h` lines 297-325
dispatches on its `val_case()`; the float payload is irrelevant to the
claims settled here and carries an opaque tag). -/
inductive GenericValue where
  | bool_val (b : Bool)
  | int64_val (i : Int)
  | string_val (s : String)
deriving DecidableEq

/-- `GetValueFromProto<std::string_view>` (`exec/expression/Expr.h`,
lines 297-325): for `T = std::string_view` none of the `if constexpr`
branches match (`string_view` is not `bool`, not integral, not
floating, not `std::string`, not `Array`, not `GenericValue`), so the
trailing `PanicInfo(Unsupported, "unsupported generic value type")`
always fires, whatever the payload. -/
def GetValueFromProtoStringView (_value_proto : GenericValue) :
    Except String String :=
  .error "unsupported generic value type"

/-- `GetValueFromProto<std::string>` (`exec/expression/Expr.h`, lines
312-315): asserts the payload is a string and returns it. -/
def GetValueFromProtoString : GenericValue → Except String String
  | .string_val s => .ok s
  | _ => .error "Assert failed: val_case is not kStringVal"

/-- `PhyJsonContainsFilterExpr::ExecJsonContainsAll<std::string>`
(`JsonContainsExpr.cpp`, lines 281-334) restricted to one batch of
rows: `GetType` is `std::string_view`, and the literal set is built
with `GetValueFromProto<GetType>(element)` (line 298) -- not
`GetValueFromProto<ExprValueType>` as in `ExecJsonContains` (line
191) -- before any row is visited. -/
def ExecJsonContainsAllString (vals : List GenericValue)
    (rows : List (JsonArrayRow String)) : Except String (List Bool) := do
  let elements ← vals.mapM GetValueFromProtoStringView
  pure (rows.map (ExecJsonContainsAll_row (buildSet elements)))

/-- `PhyJsonContainsFilterExpr::ExecJsonContains<std::string>`
(`JsonContainsExpr.cpp`, lines 173-223) restricted to one batch of
rows: here the literal set is built with
`GetValueFromProto<ExprValueType>`, which succeeds on string
payloads. -/
def ExecJsonContainsString (vals : List GenericValue)
    (rows : List (JsonArrayRow String)) : Except String (List Bool) := do
  let elements ← vals.mapM GetValueFromProtoString
  pure (rows.map (ExecJsonContains_row (buildSet elements)))

/-- Claim C9: the typed membership semantics the claim states does hold
row-wise (`execJsonContainsAll_row_iff`, `execJsonContains_row_iff`),
but `ExecJsonContainsAll` instantiated at string literals never reaches
a row: building its literal set calls `GetValueFromProto` at
`std::string_view`, which panics `Unsupported` unconditionally.  On the
single-literal query `["a"]` over a row whose array is `["a"]` the
claim requires `true`; the code raises the panic instead (while the
`Contains` variant on the same input returns `[true]` as claimed). -/
theorem jsonContainsAll_string_literals_panic :
    ExecJsonContainsAllString [.string_val "a"] [some [some "a"]] =
      .error "unsupported generic value type" ∧
    ExecJsonContainsAll_row (buildSet ["a"]) (some [some "a"]) = true ∧
    ExecJsonContainsString [.string_val "a"] [some [some "a"]] =
      .ok [true] := by
  refine ⟨rfl, by decide, rfl⟩

/-! ## Bitset assembler (`query/visitors/ExecPlanNodeVisitor.cpp`) -/

/-- `BITSET_BLOCK_SIZE`: bytes per bitset block.  Blocks are 64-bit
words (`BitsetBlockType`, `common/Types.h`; the specification fixes the
block width at 64 bits). -/
def BITSET_BLOCK_SIZE : Nat := 8

/-- `BITSET_BLOCK_BIT_SIZE`: bits per bitset block. -/
def BITSET_BLOCK_BIT_SIZE : Nat := 64

/-- Dereferencing the chunk pointer at offset `i`. -/
def chunkGet (ptr : List Bool) (i : Nat) : Bool := ptr.getD i false

/-- `vals[k]` after the nested gathering loops of the scalar block
packer (`AppendOneChunk`, `ExecPlanNodeVisitor.cpp` lines 88-93):
`vals[k] |= uint8_t(*(ptr + k * 8 + j)) << j` for `j < 8`. -/
def valsByte (ptr : List Bool) (k : Nat) : Nat :=
  (List.range 8).foldl
    (fun v j => v ||| ((chunkGet ptr (k * 8 + j)).toNat <<< j)) 0

/-- The packed 64-bit block `val` (`ExecPlanNodeVisitor.cpp`, lines
94-96): `val |= BitsetBlockType(vals[j]) << (8 * j)` over the
`BITSET_BLOCK_SIZE` gathered bytes.  This is the portable reference
packer; the `USE_DYNAMIC_SIMD` branch computes the same block via
`milvus::simd::get_bitset_block`. -/
def get_bitset_block (ptr : List Bool) : Nat :=
  (List.range BITSET_BLOCK_SIZE).foldl
    (fun val j => val ||| (valsByte ptr j <<< (8 * j))) 0

/-- `boost::dynamic_bitset::push_back`: appends one bit at the bitset's
logical end.  The bitset is modelled by its bit sequence. -/
def bitset_push_back (res : List Bool) (b : Bool) : List Bool := res ++ [b]

/-- `boost::dynamic_bitset::append(Block)`: appends the
`BITSET_BLOCK_BIT_SIZE` bits of the block, least significant first. -/
def bitset_append (res : List Bool) (val : Nat) : List Bool :=
  res ++ (List.range BITSET_BLOCK_BIT_SIZE).map fun i => val.testBit i

/-- The `AppendBit` lambda of `AppendOneChunk`
(`ExecPlanNodeVisitor.cpp`, lines 104-109): pushes `n` booleans
bit-at-a-time, advancing the pointer. -/
def AppendBit : List Bool → List Bool → Nat → List Bool
  | res, _, 0 => res
  | res, ptr, n + 1 =>
      AppendBit (bitset_push_back res (chunkGet ptr 0)) (ptr.drop 1) n

/-- The `AppendBlock` lambda of `AppendOneChunk`
(`ExecPlanNodeVisitor.cpp`, lines 81-101): packs and appends `n` whole
blocks, advancing the pointer by `BITSET_BLOCK_SIZE * 8` booleans per
block. -/
def AppendBlock : List Bool → List Bool → Nat → List Bool
  | res, _, 0 => res
  | res, ptr, n + 1 =>
      AppendBlock (bitset_append res (get_bitset_block ptr))
        (ptr.drop (BITSET_BLOCK_SIZE * 8)) n

/-- `AppendOneChunk` (`ExecPlanNodeVisitor.cpp`, lines 78-132): first a
bit-at-a-time fill up to the next block boundary (`n_prefix` in the
source, `n_head` here), an early return when that exhausts the chunk,
then whole packed blocks, then the bit-at-a-time tail (`n_suffix` in
the source, `n_tail` here). -/
def AppendOneChunk (result chunk : List Bool) : List Bool :=
  let n_head :=
    if result.length % BITSET_BLOCK_BIT_SIZE = 0 then 0
    else
      min (BITSET_BLOCK_BIT_SIZE - result.length % BITSET_BLOCK_BIT_SIZE)
        chunk.length
  if n_head = chunk.length then AppendBit result chunk n_head
  else
    let n_block := (chunk.length - n_head) / BITSET_BLOCK_BIT_SIZE
    let n_tail := (chunk.length - n_head) % BITSET_BLOCK_BIT_SIZE
    AppendBit
      (AppendBlock (AppendBit result chunk n_head) (chunk.drop n_head) n_block)
      (chunk.drop (n_head + n_block * BITSET_BLOCK_BIT_SIZE)) n_tail

/-- Bits of an or-accumulation of single shifted bits: position `i`
holds `f i` for `i < n`. -/
theorem testBit_bit_orFold (f : Nat → Bool) (n i : Nat) :
    Nat.testBit
        ((List.range n).foldl (fun v j => v ||| ((f j).toNat <<< j)) 0) i =
      (decide (i < n) && f i) := by
  induction n with
  | zero => simp
  | succ n ih =>
      rw [List.range_succ, List.foldl_append, List.foldl_cons, List.foldl_nil,
        Nat.testBit_lor, ih, Nat.testBit_shiftLeft]
      have htn : ∀ (b : Bool) (m : Nat),
          Nat.testBit b.toNat m = (b && decide (m = 0)) := by
        intro b m
        cases b with
        | false => simp
        | true => cases m with
          | zero => simp
          | succ m => simp [Nat.testBit_succ]
      rw [htn]
      by_cases h1 : i < n
      · have h2 : ¬ i ≥ n := by omega
        have h3 : i < n + 1 := by omega
        simp [h1, h2, h3]
      · by_cases h3 : i = n
        · subst h3
          have h4 : i - i = 0 := by omega
          simp [h1, h4]
        · have h2 : i ≥ n := by omega
          have h5 : ¬ (i - n = 0) := by omega
          have h6 : ¬ i < n + 1 := by omega
          simp [h1, h2, h5, h6]

/-- An or-accumulation of single shifted bits over `range n` is below
`2 ^ n`. -/
theorem bit_orFold_lt (f : Nat → Bool) (n : Nat) :
    (List.range n).foldl (fun v j => v ||| ((f j).toNat <<< j)) 0 < 2 ^ n := by
  apply Nat.lt_pow_two_of_testBit
  intro i hi
  rw [testBit_bit_orFold]
  have : ¬ i < n := by omega
  simp [this]

/-- Bit `i` of the gathered byte `vals[k]` is boolean `k * 8 + i` of
the chunk, for `i < 8`. -/
theorem testBit_valsByte (ptr : List Bool) (k i : Nat) :
    (valsByte ptr k).testBit i = (decide (i < 8) && chunkGet ptr (k * 8 + i)) :=
  testBit_bit_orFold (fun j => chunkGet ptr (k * 8 + j)) 8 i

/-- The gathered byte fits in 8 bits. -/
theorem valsByte_lt (ptr : List Bool) (k : Nat) : valsByte ptr k < 2 ^ 8 :=
  bit_orFold_lt (fun j => chunkGet ptr (k * 8 + j)) 8

/-- Bits of an or-accumulation of byte-wide values shifted into
byte lanes. -/
theorem testBit_byte_orFold (g : Nat → Nat) (hg : ∀ k, g k < 2 ^ 8)
    (n i : Nat) :
    Nat.testBit
        ((List.range n).foldl (fun v k => v ||| (g k <<< (8 * k))) 0) i =
      (decide (i < 8 * n) && Nat.testBit (g (i / 8)) (i % 8)) := by
  induction n with
  | zero => simp
  | succ n ih =>
      rw [List.range_succ, List.foldl_append, List.foldl_cons, List.foldl_nil,
        Nat.testBit_lor, ih, Nat.testBit_shiftLeft]
      by_cases h1 : i < 8 * n
      · have hge : ¬ i ≥ 8 * n := by omega
        have h2 : i < 8 * (n + 1) := by omega
        simp [h1, hge, h2]
      · by_cases h2 : i < 8 * (n + 1)
        · have hge : i ≥ 8 * n := by omega
          have hdiv : i / 8 = n := by omega
          have hmod : i % 8 = i - 8 * n := by omega
          simp [h1, h2, hge, hdiv, hmod]
        · have hge : i ≥ 8 * n := by omega
          have hfb : Nat.testBit (g n) (i - 8 * n) = false := by
            apply Nat.testBit_lt_two_pow
            calc g n < 2 ^ 8 := hg n
              _ ≤ 2 ^ (i - 8 * n) := Nat.pow_le_pow_right (by omega) (by omega)
          simp [h1, h2, hge, hfb]

/-- Bit `i` of the packed block is boolean `i` of the chunk, for
`i < 64`: the packer preserves logical positions. -/
theorem testBit_get_bitset_block (ptr : List Bool) (i : Nat) :
    (get_bitset_block ptr).testBit i = (decide (i < 64) && chunkGet ptr i) := by
  have h := testBit_byte_orFold (valsByte ptr) (valsByte_lt ptr) 8 i
  rw [show get_bitset_block ptr =
    (List.range 8).foldl (fun val j => val ||| (valsByte ptr j <<< (8 * j))) 0
    from rfl, h, testBit_valsByte]
  have h1 : i % 8 < 8 := Nat.mod_lt _ (by omega)
  have h2 : i / 8 * 8 + i % 8 = i := by omega
  have h3 : (8 : Nat) * 8 = 64 := by omega
  simp [h1, h2, h3]

/-- `AppendBit` appends the first `n` booleans of the pointer in
order. -/
theorem appendBit_eq (n : Nat) :
    ∀ res ptr : List Bool, n ≤ ptr.length →
      AppendBit res ptr n = res ++ ptr.take n := by
  induction n with
  | zero => intro res ptr _; simp [AppendBit]
  | succ n ih =>
      intro res ptr h
      cases ptr with
      | nil => simp at h
      | cons p ps =>
          rw [show AppendBit res (p :: ps) (n + 1) =
            AppendBit (res ++ [p]) ps n from rfl]
          rw [ih _ _ (by simpa using h)]
          simp

/-- Mapping positional reads over `range n` recovers the prefix of the
list. -/
theorem map_range_getD {α : Type} (l : List α) (d : α) :
    ∀ n, n ≤ l.length →
      (List.range n).map (fun i => l.getD i d) = l.take n := by
  intro n
  induction n with
  | zero => intro _; simp
  | succ n ih =>
      intro h
      have hn : n < l.length := by omega
      rw [List.range_succ, List.map_append, ih (by omega), List.map_singleton,
        List.take_succ]
      congr 1
      rw [List.getD_eq_getElem l d hn, List.getElem?_eq_getElem hn]
      rfl

/-- Appending one packed block transfers the first 64 booleans of the
pointer verbatim. -/
theorem bitset_append_block (res ptr : List Bool) (h : 64 ≤ ptr.length) :
    bitset_append res (get_bitset_block ptr) = res ++ ptr.take 64 := by
  unfold bitset_append
  congr 1
  have hcong : ∀ i ∈ List.range 64,
      (get_bitset_block ptr).testBit i = chunkGet ptr i := by
    intro i hi
    rw [testBit_get_bitset_block]
    have : i < 64 := List.mem_range.mp hi
    simp [this]
  rw [show BITSET_BLOCK_BIT_SIZE = 64 from rfl, List.map_congr_left hcong]
  exact map_range_getD ptr false 64 h

/-- `AppendBlock` appends the first `64 * n` booleans of the pointer in
order. -/
theorem appendBlock_eq :
    ∀ (n : Nat) (res ptr : List Bool), 64 * n ≤ ptr.length →
      AppendBlock res ptr n = res ++ ptr.take (64 * n) := by
  intro n
  induction n with
  | zero => intro res ptr _; simp [AppendBlock]
  | succ n ih =>
      intro res ptr h
      rw [show AppendBlock res ptr (n + 1) =
        AppendBlock (bitset_append res (get_bitset_block ptr)) (ptr.drop 64) n
        from rfl]
      have h64 : 64 ≤ ptr.length := by omega
      have hdrop : (ptr.drop 64).length = ptr.length - 64 := by simp
      rw [ih (bitset_append res (get_bitset_block ptr)) (ptr.drop 64)
        (by omega)]
      rw [bitset_append_block res ptr h64, List.append_assoc]
      congr 1
      rw [← List.take_add]
      congr 1
      omega

/-- The whole-block loop followed by the tail loop transfers the rest
of the chunk verbatim. -/
theorem appendBlocks_tail (r1 rest : List Bool) :
    AppendBit (AppendBlock r1 rest (rest.length / 64))
      (rest.drop (rest.length / 64 * 64)) (rest.length % 64) = r1 ++ rest := by
  rw [appendBlock_eq (rest.length / 64) r1 rest (by omega)]
  have hlen : (rest.drop (rest.length / 64 * 64)).length =
      rest.length - rest.length / 64 * 64 := by simp
  rw [appendBit_eq (rest.length % 64) _ _ (by omega)]
  rw [List.append_assoc]
  congr 1
  rw [show (64 : Nat) * (rest.length / 64) = rest.length / 64 * 64 from
    Nat.mul_comm _ _]
  rw [← List.take_add]
  rw [show rest.length / 64 * 64 + rest.length % 64 = rest.length from by omega]
  exact List.take_length rest

/-- Claim C3: the pack routine preserves every boolean at its logical
position.  Appending one bool-vector chunk to the packed bitset yields
exactly the old bit sequence followed by the chunk (so the size grows
by exactly the chunk length), and consequently packing any sequence of
chunks yields the concatenation of the chunks. -/
theorem appendOneChunk_preserves_bits :
    (∀ result chunk : List Bool,
      AppendOneChunk result chunk = result ++ chunk) ∧
    (∀ (chunks : List (List Bool)) (init : List Bool),
      chunks.foldl AppendOneChunk init = init ++ chunks.flatten) := by
  have hmain : ∀ result chunk : List Bool,
      AppendOneChunk result chunk = result ++ chunk := by
    intro result chunk
    unfold AppendOneChunk
    simp only [show BITSET_BLOCK_BIT_SIZE = 64 from rfl]
    by_cases h0 : result.length % 64 = 0
    · simp only [if_pos h0]
      by_cases hc : (0 : Nat) = chunk.length
      · rw [if_pos hc]
        have : chunk = [] := List.length_eq_zero.mp hc.symm
        subst this
        simp [AppendBit]
      · rw [if_neg hc]
        have h1 := appendBlocks_tail result chunk
        simpa using h1
    · simp only [if_neg h0]
      by_cases hc : min (64 - result.length % 64) chunk.length = chunk.length
      · rw [if_pos hc, hc, appendBit_eq chunk.length result chunk le_rfl]
        simp
      · rw [if_neg hc]
        have hle : min (64 - result.length % 64) chunk.length ≤ chunk.length :=
          min_le_right _ _
        set nh := min (64 - result.length % 64) chunk.length with hnh
        rw [appendBit_eq nh result chunk hle]
        have hrest : (chunk.drop nh).length = chunk.length - nh := by simp
        have h1 := appendBlocks_tail (result ++ chunk.take nh) (chunk.drop nh)
        rw [hrest] at h1
        rw [show chunk.drop (nh + (chunk.length - nh) / 64 * 64) =
          (chunk.drop nh).drop ((chunk.length - nh) / 64 * 64) from by
            rw [List.drop_drop]]
        rw [h1, List.append_assoc, List.take_append_drop]
  refine ⟨hmain, ?_⟩
  intro chunks
  induction chunks with
  | nil => intro init; simp
  | cons c cs ih =>
      intro init
      simp only [List.foldl_cons, List.flatten_cons]
      rw [ih (AppendOneChunk init c), hmain init c, List.append_assoc]

end Milvus
